/-
Verification of the task/account data model of `todo_gui_app.py`.

The program is a Tkinter to-do application.  The claims under study concern
the pure data logic of its two classes:

* `LoginWindow.register`  — signup validation over the credential mapping;
* `TodoGUIApp.add_task`, `edit_task` (inner `save_edit`), `mark_task_done`,
  `mark_task_pending`, `delete_task`, `refresh_task_list` (filtering) —
  operations on the per-user task sequence `self.tasks`.

We embed the task sequence as a `List Task` and each GUI handler as a pure
function on it.  Widget manipulation (tree refresh, dialogs) carries no task
state; the only observable effects besides the sequence itself are which
dialog is shown and whether `save_tasks` (a persistence write) runs, which we
record in an `Effect` value.
-/
import Mathlib

namespace Todo

/-- Whitespace characters removed by Python's `str.strip()`. -/
def isPyWS (c : Char) : Bool :=
  c == ' ' || c == '\t' || c == '\n' || c == '\r' || c == '\x0b' || c == '\x0c'

/-- `str.strip()` on the underlying character list: drop whitespace from the
left, then from the right. -/
def stripList (l : List Char) : List Char :=
  (((l.dropWhile isPyWS).reverse.dropWhile isPyWS).reverse)

/-- Python's `str.strip()` (used by `add_task`, `save_edit`, `login`,
`register` on user-entered text). -/
def pyStrip (s : String) : String :=
  ⟨stripList s.data⟩

/-- One entry of `self.tasks`: the dict
`{'id': ..., 'name': ..., 'status': ..., 'created_at': ...}` built in
`add_task`.  `status` is the literal string the program stores:
`"Not Done"` (pending) or `"Done"`. -/
structure Task where
  id : Nat
  name : String
  status : String
  created_at : String
deriving DecidableEq, Repr

/-- The observable effect of one GUI handler run, besides the task sequence:

* `silent`  — no dialog shown, no `save_tasks` call (the `for` loop of
  `mark_task_done` / `mark_task_pending` falls through without a match);
* `info`    — a `messagebox.showinfo` notice, no `save_tasks` call
  (the "already marked" branch);
* `savedOk` — `save_tasks` ran, followed by a success `showinfo`;
* `warned`  — a `messagebox.showwarning`, no state change, no save
  (empty task name in `add_task` / `save_edit`);
* `errNotFound` — `messagebox.showerror("Error", "Task not found!")`,
  raised by `edit_task` when the id is absent. -/
inductive Effect where
  | silent
  | info
  | savedOk
  | warned
  | errNotFound
deriving DecidableEq, Repr

/-- `max([task['id'] for task in self.tasks], default=0)` from `add_task`. -/
def maxId (tasks : List Task) : Nat :=
  (tasks.map (·.id)).foldr Nat.max 0

/-- `TodoGUIApp.add_task` on the task sequence: strip the entered name; if
empty, warn and change nothing; else append a task with id `maxId + 1`,
status `"Not Done"`, and the creation timestamp, then save. -/
def addTask (tasks : List Task) (rawName now : String) : List Task × Effect :=
  let name := pyStrip rawName
  if name = "" then (tasks, .warned)
  else (tasks ++ [{ id := maxId tasks + 1, name := name, status := "Not Done",
                    created_at := now }], .savedOk)

/-- The `for task in self.tasks: if task['id'] == task_id: ... return` loop of
`mark_task_done`: only the first task with the given id is examined; if it is
already `"Done"` an informational dialog is shown and nothing is saved,
otherwise its status becomes `"Done"` and the sequence is saved; if no task
matches, the loop falls through silently. -/
def markDone (tasks : List Task) (tid : Nat) : List Task × Effect :=
  match tasks with
  | [] => ([], .silent)
  | t :: ts =>
    if t.id = tid then
      if t.status = "Done" then (t :: ts, .info)
      else ({ t with status := "Done" } :: ts, .savedOk)
    else
      let r := markDone ts tid
      (t :: r.1, r.2)

/-- `mark_task_pending`, symmetric to `markDone` with target `"Not Done"`. -/
def markPending (tasks : List Task) (tid : Nat) : List Task × Effect :=
  match tasks with
  | [] => ([], .silent)
  | t :: ts =>
    if t.id = tid then
      if t.status = "Not Done" then (t :: ts, .info)
      else ({ t with status := "Not Done" } :: ts, .savedOk)
    else
      let r := markPending ts tid
      (t :: r.1, r.2)

/-- The in-place `task['name'] = new_name` of `save_edit`, applied to the
first task whose id matches (the task `edit_task` located by its scan). -/
def editGo (tasks : List Task) (tid : Nat) (newName : String) : List Task :=
  match tasks with
  | [] => []
  | t :: ts =>
    if t.id = tid then { t with name := newName } :: ts
    else t :: editGo ts tid newName

/-- `TodoGUIApp.edit_task` followed by its inner `save_edit`: locate the task
by id (error dialog if absent), strip the entered replacement name (warning
if empty), otherwise overwrite the name and save. -/
def editTask (tasks : List Task) (tid : Nat) (rawName : String) :
    List Task × Effect :=
  match tasks.find? (fun t => t.id == tid) with
  | none => (tasks, .errNotFound)
  | some _ =>
    let newName := pyStrip rawName
    if newName = "" then (tasks, .warned)
    else (editGo tasks tid newName, .savedOk)

/-- `for i, task in enumerate(self.tasks, 1): task['id'] = i` — the id
reassignment loop of `delete_task`, started at `i`. -/
def renumberFrom (i : Nat) (tasks : List Task) : List Task :=
  match tasks with
  | [] => []
  | t :: ts => { t with id := i } :: renumberFrom (i + 1) ts

/-- The confirmed branch of `TodoGUIApp.delete_task`: drop every task whose
id is in the selected id list, renumber the remainder `1..N'` in order, save,
and report `count = len(task_ids)` — the number of selected ids, computed
before the removal. -/
def deleteTask (tasks : List Task) (ids : List Nat) : List Task × Nat :=
  (renumberFrom 1 (tasks.filter (fun t => !ids.contains t.id)), ids.length)

/-- The display pass of `refresh_task_list`: keep a task when
`active_filter is None or task['status'] == active_filter`, in sequence
order.  `self.tasks` itself is not touched. -/
def filterTasks (tasks : List Task) (activeFilter : Option String) : List Task :=
  match activeFilter with
  | none => tasks
  | some s => tasks.filter (fun t => t.status == s)

/-- `LoginWindow.register`'s validation outcomes: one distinct error dialog
per violated rule, in source order, or account creation. -/
inductive SignupResult where
  | errEmptyUsername
  | errShortUsername
  | errEmptyPassword
  | errShortPassword
  | errEmptyConfirm
  | errMismatch
  | errExists
  | ok
deriving DecidableEq, Repr

/-- `LoginWindow.register`: the username is stripped, the passwords are not;
the checks run top to bottom, each `return`ing at the first failure; on
success the account is created and saved.  `existing` is the key set of
`self.users`. -/
def register (existing : List String) (rawUsername password confirm : String) :
    SignupResult :=
  let username := pyStrip rawUsername
  if username = "" then .errEmptyUsername
  else if username.length < 3 then .errShortUsername
  else if password = "" then .errEmptyPassword
  else if password.length < 4 then .errShortPassword
  else if confirm = "" then .errEmptyConfirm
  else if password ≠ confirm then .errMismatch
  else if username ∈ existing then .errExists
  else .ok

/-- Task sequences reachable from the empty sequence (a fresh or unreadable
per-user file loads as `[]`) by the GUI's mutating handlers. -/
inductive Reachable : List Task → Prop where
  | nil : Reachable []
  | add (ts rawName now) : Reachable ts → Reachable (addTask ts rawName now).1
  | edit (ts tid rawName) : Reachable ts → Reachable (editTask ts tid rawName).1
  | done (ts tid) : Reachable ts → Reachable (markDone ts tid).1
  | pending (ts tid) : Reachable ts → Reachable (markPending ts tid).1
  | del (ts ids) : Reachable ts → Reachable (deleteTask ts ids).1

/-- The ids of the sequence, in order, are positionally `1..N` — the strong
form of the dense-ID invariant the operations actually maintain. -/
def PosIds (tasks : List Task) : Prop :=
  tasks.map (·.id) = List.range' 1 tasks.length

/-- The dense-ID invariant as the specification states it: the id values are
exactly `1..N`, with no duplicates, where `N` is the current count. -/
def DenseIds (tasks : List Task) : Prop :=
  (tasks.map (·.id)).Nodup ∧
  ∀ n : Nat, n ∈ tasks.map (·.id) ↔ 1 ≤ n ∧ n ≤ tasks.length

lemma foldrMax_le {l : List Nat} {n : Nat} (h : ∀ a ∈ l, a ≤ n) :
    l.foldr Nat.max 0 ≤ n := by
  induction l with
  | nil => exact Nat.zero_le n
  | cons a l ih =>
    exact Nat.max_le.2 ⟨h a (List.mem_cons_self a l),
      ih fun b hb => h b (List.mem_cons_of_mem a hb)⟩

lemma le_foldrMax {l : List Nat} {a : Nat} (h : a ∈ l) :
    a ≤ l.foldr Nat.max 0 := by
  induction l with
  | nil => cases h
  | cons b l ih =>
    rcases List.mem_cons.1 h with rfl | h
    · exact Nat.le_max_left _ _
    · exact Nat.le_trans (ih h) (Nat.le_max_right _ _)

/-- Under the dense-ID invariant, the maximum id computed by `add_task`
equals the number of tasks. -/
lemma maxId_of_denseIds {ts : List Task} (h : DenseIds ts) :
    maxId ts = ts.length := by
  obtain ⟨-, hmem⟩ := h
  rcases Nat.eq_zero_or_pos ts.length with hz | hpos
  · have : ts.map (·.id) = [] := by
      refine List.eq_nil_iff_forall_not_mem.2 fun a ha => ?_
      have := (hmem a).1 ha
      omega
    simp [maxId, this, hz]
  · refine Nat.le_antisymm (foldrMax_le fun a ha => ((hmem a).1 ha).2) ?_
    exact le_foldrMax ((hmem ts.length).2 ⟨hpos, Nat.le_refl _⟩)

lemma markDone_map_id (ts : List Task) (tid : Nat) :
    (markDone ts tid).1.map (·.id) = ts.map (·.id) := by
  induction ts with
  | nil => rfl
  | cons t ts ih =>
    simp only [markDone]
    split
    · split <;> simp
    · simp [ih]

lemma markPending_map_id (ts : List Task) (tid : Nat) :
    (markPending ts tid).1.map (·.id) = ts.map (·.id) := by
  induction ts with
  | nil => rfl
  | cons t ts ih =>
    simp only [markPending]
    split
    · split <;> simp
    · simp [ih]

lemma editGo_map_id (ts : List Task) (tid : Nat) (nm : String) :
    (editGo ts tid nm).map (·.id) = ts.map (·.id) := by
  induction ts with
  | nil => rfl
  | cons t ts ih =>
    simp only [editGo]
    split <;> simp [ih]

lemma editTask_map_id (ts : List Task) (tid : Nat) (raw : String) :
    (editTask ts tid raw).1.map (·.id) = ts.map (·.id) := by
  simp only [editTask]
  split
  · rfl
  · split
    · rfl
    · exact editGo_map_id ts tid (pyStrip raw)

lemma renumberFrom_map_id (ts : List Task) (i : Nat) :
    (renumberFrom i ts).map (·.id) = List.range' i ts.length := by
  induction ts generalizing i with
  | nil => rfl
  | cons t ts ih =>
    simp only [renumberFrom, List.map_cons, List.length_cons, ih,
      List.range'_succ]

lemma renumberFrom_length (ts : List Task) (i : Nat) :
    (renumberFrom i ts).length = ts.length := by
  have := congrArg List.length (renumberFrom_map_id ts i)
  simpa using this

/-- Renumbering changes only ids: names, statuses and creation stamps are
kept, in order. -/
lemma renumberFrom_content (ts : List Task) (i : Nat) :
    (renumberFrom i ts).map (fun t => (t.name, t.status, t.created_at))
      = ts.map (fun t => (t.name, t.status, t.created_at)) := by
  induction ts generalizing i with
  | nil => rfl
  | cons t ts ih => simp [renumberFrom, ih]

lemma posIds_denseIds {ts : List Task} (h : PosIds ts) : DenseIds ts := by
  unfold PosIds at h
  refine ⟨h ▸ List.nodup_range' 1 ts.length, fun n => ?_⟩
  rw [h, List.mem_range']
  constructor
  · rintro ⟨i, hi, rfl⟩
    omega
  · intro hn
    exact ⟨n - 1, by omega, by omega⟩

/-- Appending a task with id `maxId + 1` preserves the dense-ID invariant. -/
lemma denseIds_append {ts : List Task} (h : DenseIds ts)
    (nm st ca : String) :
    DenseIds (ts ++ [{ id := maxId ts + 1, name := nm, status := st,
                       created_at := ca }]) := by
  obtain ⟨hnd, hmem⟩ := h
  have hmax := maxId_of_denseIds ⟨hnd, hmem⟩
  constructor
  · rw [List.map_append]
    refine (List.nodup_append).2 ⟨hnd, List.nodup_singleton _, ?_⟩
    intro a ha hb
    have h1 := (hmem a).1 ha
    have h2 : a = maxId ts + 1 := by simpa using hb
    omega
  · intro n
    rw [List.map_append, List.mem_append, List.length_append]
    simp only [List.map_cons, List.map_nil, List.mem_singleton,
      List.length_cons, List.length_nil]
    rw [hmem n]
    omega

lemma posIds_addTask {ts : List Task} (h : PosIds ts) (raw now : String) :
    PosIds (addTask ts raw now).1 := by
  unfold addTask
  by_cases he : pyStrip raw = ""
  · simpa [he] using h
  · have hd := posIds_denseIds h
    have hmax := maxId_of_denseIds hd
    unfold PosIds at h ⊢
    simp only [he, if_neg, ite_false]
    rw [List.map_append, List.length_append, h, hmax]
    simp [List.range'_1_concat, Nat.add_comm]

lemma posIds_editTask {ts : List Task} (h : PosIds ts) (tid : Nat)
    (raw : String) : PosIds (editTask ts tid raw).1 := by
  unfold PosIds at h ⊢
  have hm := editTask_map_id ts tid raw
  have hl : (editTask ts tid raw).1.length = ts.length := by
    have := congrArg List.length hm
    simpa using this
  rw [hm, hl, h]

lemma posIds_markDone {ts : List Task} (h : PosIds ts) (tid : Nat) :
    PosIds (markDone ts tid).1 := by
  unfold PosIds at h ⊢
  have hm := markDone_map_id ts tid
  have hl : (markDone ts tid).1.length = ts.length := by
    have := congrArg List.length hm
    simpa using this
  rw [hm, hl, h]

lemma posIds_markPending {ts : List Task} (h : PosIds ts) (tid : Nat) :
    PosIds (markPending ts tid).1 := by
  unfold PosIds at h ⊢
  have hm := markPending_map_id ts tid
  have hl : (markPending ts tid).1.length = ts.length := by
    have := congrArg List.length hm
    simpa using this
  rw [hm, hl, h]

lemma posIds_deleteTask (ts : List Task) (ids : List Nat) :
    PosIds (deleteTask ts ids).1 := by
  unfold PosIds deleteTask
  rw [renumberFrom_map_id, renumberFrom_length]

/-- Every reachable task sequence has ids positionally `1..N`. -/
lemma reachable_posIds {ts : List Task} (h : Reachable ts) : PosIds ts := by
  induction h with
  | nil => rfl
  | add ts rawName now _ ih => exact posIds_addTask ih rawName now
  | edit ts tid rawName _ ih => exact posIds_editTask ih tid rawName
  | done ts tid _ ih => exact posIds_markDone ih tid
  | pending ts tid _ ih => exact posIds_markPending ih tid
  | del ts ids _ ih => exact posIds_deleteTask ts ids

/-- A conditional update that touches no member of the list is the
identity on it. -/
lemma map_upd_eq_self {ts : List Task} {tid : Nat} (f : Task → Task)
    (h : ∀ u ∈ ts, u.id ≠ tid) :
    ts.map (fun u => if u.id = tid then f u else u) = ts := by
  have h1 : ts.map (fun u => if u.id = tid then f u else u) = ts.map id :=
    List.map_congr_left fun a ha => by simp [h a ha]
  rw [h1, List.map_id]

/-- When ids are duplicate-free and the task `t` with the requested id is a
member, `mark_task_done` either reports "already done" and changes nothing,
or flips exactly that task's status to `"Done"` and saves. -/
lemma markDone_eq_of_mem {ts : List Task} {t : Task} {tid : Nat}
    (hnd : (ts.map (·.id)).Nodup) (ht : t ∈ ts) (hid : t.id = tid) :
    markDone ts tid =
      if t.status = "Done" then (ts, Effect.info)
      else (ts.map (fun u => if u.id = tid then { u with status := "Done" }
              else u), Effect.savedOk) := by
  induction ts with
  | nil => cases ht
  | cons a ts ih =>
    have hnd' : (ts.map (·.id)).Nodup := (List.nodup_cons.1 hnd).2
    have hna : a.id ∉ ts.map (·.id) := (List.nodup_cons.1 hnd).1
    rcases List.mem_cons.1 ht with rfl | hmem
    · by_cases hs : t.status = "Done"
      · simp [markDone, hid, hs]
      · have hrest : ts.map (fun u => if u.id = tid then
            { u with status := "Done" } else u) = ts :=
          map_upd_eq_self _ fun u hu he => hna (by
            rw [hid, ← he]; exact List.mem_map_of_mem _ hu)
        simp [markDone, hid, hs, hrest]
    · have hne : ¬ a.id = tid := fun h =>
        hna (h ▸ hid ▸ List.mem_map_of_mem _ hmem)
      rw [show markDone (a :: ts) tid
            = (a :: (markDone ts tid).1, (markDone ts tid).2) by
          simp [markDone, hne]]
      rw [ih hnd' hmem]
      by_cases hs : t.status = "Done" <;> simp [hs, hne]

/-- The `mark_task_pending` counterpart of `markDone_eq_of_mem`. -/
lemma markPending_eq_of_mem {ts : List Task} {t : Task} {tid : Nat}
    (hnd : (ts.map (·.id)).Nodup) (ht : t ∈ ts) (hid : t.id = tid) :
    markPending ts tid =
      if t.status = "Not Done" then (ts, Effect.info)
      else (ts.map (fun u => if u.id = tid then { u with status := "Not Done" }
              else u), Effect.savedOk) := by
  induction ts with
  | nil => cases ht
  | cons a ts ih =>
    have hnd' : (ts.map (·.id)).Nodup := (List.nodup_cons.1 hnd).2
    have hna : a.id ∉ ts.map (·.id) := (List.nodup_cons.1 hnd).1
    rcases List.mem_cons.1 ht with rfl | hmem
    · by_cases hs : t.status = "Not Done"
      · simp [markPending, hid, hs]
      · have hrest : ts.map (fun u => if u.id = tid then
            { u with status := "Not Done" } else u) = ts :=
          map_upd_eq_self _ fun u hu he => hna (by
            rw [hid, ← he]; exact List.mem_map_of_mem _ hu)
        simp [markPending, hid, hs, hrest]
    · have hne : ¬ a.id = tid := fun h =>
        hna (h ▸ hid ▸ List.mem_map_of_mem _ hmem)
      rw [show markPending (a :: ts) tid
            = (a :: (markPending ts tid).1, (markPending ts tid).2) by
          simp [markPending, hne]]
      rw [ih hnd' hmem]
      by_cases hs : t.status = "Not Done" <;> simp [hs, hne]

/-- `save_edit`'s in-place rename, expressed as a map over the sequence
(valid when ids are duplicate-free and the id is present). -/
lemma editGo_eq_map {ts : List Task} {t : Task} {tid : Nat} (nm : String)
    (hnd : (ts.map (·.id)).Nodup) (ht : t ∈ ts) (hid : t.id = tid) :
    editGo ts tid nm
      = ts.map (fun u => if u.id = tid then { u with name := nm } else u) := by
  induction ts with
  | nil => cases ht
  | cons a ts ih =>
    have hnd' : (ts.map (·.id)).Nodup := (List.nodup_cons.1 hnd).2
    have hna : a.id ∉ ts.map (·.id) := (List.nodup_cons.1 hnd).1
    rcases List.mem_cons.1 ht with rfl | hmem
    · have hrest : ts.map (fun u => if u.id = tid then
          { u with name := nm } else u) = ts :=
        map_upd_eq_self _ fun u hu he => hna (by
          rw [hid, ← he]; exact List.mem_map_of_mem _ hu)
      simp [editGo, hid, hrest]
    · have hne : ¬ a.id = tid := fun h =>
        hna (h ▸ hid ▸ List.mem_map_of_mem _ hmem)
      simp only [editGo, if_neg hne, List.map_cons, ih hnd' hmem]

example : pyStrip "  a b  " = "a b" := by decide
example : pyStrip "   " = "" := by decide
example : maxId [⟨1, "a", "Not Done", "t"⟩, ⟨2, "b", "Done", "t"⟩] = 2 := by decide
example : (markDone [⟨1, "a", "Not Done", "t"⟩] 2).2 = .silent := by decide
example : (deleteTask [⟨1, "a", "Not Done", "t"⟩, ⟨2, "b", "Done", "t"⟩] [1]).1
    = [⟨1, "b", "Done", "t"⟩] := by decide
example : register [] "ab" "pass" "pass" = .errShortUsername := by decide
example : register [] "abc" "pass" "pass" = .ok := by decide

/-- C1: Dense-ID invariant: for every reachable task sequence of one account
(starting from the empty sequence and applying any number of add, edit,
mark_done, mark_pending, delete operations), the id values of the tasks are
exactly `1..N` with no gaps or duplicates, where `N` is the current number of
tasks. -/
theorem c1_dense_id_invariant (ts : List Task) (h : Reachable ts) :
    DenseIds ts :=
  posIds_denseIds (reachable_posIds h)

/-- Witness for C1 at the specification's own scenario: add "buy milk", add
"call bob", then delete id 1. -/
theorem c1_dense_id_invariant_witness :
    DenseIds (deleteTask (addTask (addTask [] "buy milk" "t1").1
      "call bob" "t2").1 [1]).1 :=
  c1_dense_id_invariant _ (Reachable.del _ _
    (Reachable.add _ _ _ (Reachable.add _ _ _ Reachable.nil)))

/-- C3: for every task sequence and every name that is non-empty after
trimming, add appends a new task whose id is the previous maximum id plus
one (1 on the empty sequence, since `maxId [] = 0`), with status
`"Not Done"` (pending) and the creation timestamp, saves, and the dense-ID
invariant is preserved; a name that trims to empty only warns and leaves the
sequence unchanged. -/
theorem c3_add_task (ts : List Task) (raw now : String) :
    (pyStrip raw ≠ "" →
      (addTask ts raw now).1
        = ts ++ [{ id := maxId ts + 1, name := pyStrip raw,
                   status := "Not Done", created_at := now }]
      ∧ (addTask ts raw now).2 = Effect.savedOk
      ∧ (DenseIds ts → DenseIds (addTask ts raw now).1))
    ∧ (pyStrip raw = "" →
      (addTask ts raw now).1 = ts ∧ (addTask ts raw now).2 = Effect.warned) := by
  constructor
  · intro hne
    refine ⟨by simp [addTask, hne], by simp [addTask, hne], fun hd => ?_⟩
    have happ := denseIds_append hd (pyStrip raw) "Not Done" now
    simpa [addTask, hne] using happ
  · intro he
    simp [addTask, he]

/-- Witness for C3: adding `" milk "` to the empty sequence produces the
single task `⟨1, "milk", "Not Done", _⟩` and the invariant holds. -/
theorem c3_add_task_witness :
    (addTask [] " milk " "t").1
      = [{ id := maxId [] + 1, name := pyStrip " milk ",
           status := "Not Done", created_at := "t" }]
    ∧ DenseIds (addTask [] " milk " "t").1 := by
  have hd : DenseIds ([] : List Task) := by
    refine ⟨List.nodup_nil, fun n => ?_⟩
    simp only [List.map_nil, List.not_mem_nil, List.length_nil, false_iff]
    omega
  obtain ⟨h1, h2, h3⟩ := (c3_add_task [] " milk " "t").1 (by decide)
  exact ⟨by simpa using h1, h3 hd⟩

/-- C4 counterexample: on the one-task sequence with id `1`, requesting id
`2` (absent) makes both mark operations return the sequence unchanged with
the `silent` effect — no dialog at all, in particular not the not-found
error dialog the claim requires. -/
theorem c4_not_found_counterexample :
    markDone [⟨1, "a", "Not Done", "t"⟩] 2
        = ([⟨1, "a", "Not Done", "t"⟩], Effect.silent)
    ∧ markPending [⟨1, "a", "Done", "t"⟩] 2
        = ([⟨1, "a", "Done", "t"⟩], Effect.silent)
    ∧ Effect.silent ≠ Effect.errNotFound := by decide

/-- C4 (amended): for every task sequence and every id not present in it,
mark_done and mark_pending do nothing at all: the sequence is unchanged, no
persistence write happens, and no dialog — in particular no NotFound
error — is shown (the loop falls through silently). -/
theorem c4_mark_missing_silent (ts : List Task) (tid : Nat)
    (h : ∀ t ∈ ts, t.id ≠ tid) :
    markDone ts tid = (ts, Effect.silent)
    ∧ markPending ts tid = (ts, Effect.silent) := by
  induction ts with
  | nil => exact ⟨rfl, rfl⟩
  | cons a ts ih =>
    have hne : ¬ a.id = tid := h a (List.mem_cons_self a ts)
    have ih' := ih fun t htm => h t (List.mem_cons_of_mem a htm)
    constructor
    · simp [markDone, hne, ih'.1]
    · simp [markPending, hne, ih'.2]

/-- Witness for the amended C4 at a concrete sequence and absent id. -/
theorem c4_mark_missing_silent_witness :
    markDone [⟨1, "a", "Not Done", "t"⟩] 7
        = ([⟨1, "a", "Not Done", "t"⟩], Effect.silent)
    ∧ markPending [⟨1, "a", "Not Done", "t"⟩] 7
        = ([⟨1, "a", "Not Done", "t"⟩], Effect.silent) :=
  c4_mark_missing_silent [⟨1, "a", "Not Done", "t"⟩] 7 (by decide)

/-- C5: for every task whose status already equals the target status,
mark_done (resp. mark_pending) only shows the informational "already marked"
notice: the whole sequence — in particular that task's status — is unchanged
and no persistence write is triggered (`Effect.info`, not
`Effect.savedOk`). -/
theorem c5_mark_noop (ts : List Task) (tid : Nat) (t : Task)
    (hnd : (ts.map (·.id)).Nodup) (ht : t ∈ ts) (hid : t.id = tid) :
    (t.status = "Done" → markDone ts tid = (ts, Effect.info))
    ∧ (t.status = "Not Done" → markPending ts tid = (ts, Effect.info)) := by
  constructor
  · intro hs
    rw [markDone_eq_of_mem hnd ht hid]
    simp [hs]
  · intro hs
    rw [markPending_eq_of_mem hnd ht hid]
    simp [hs]

/-- Witness for C5: marking an already-done task done is a no-op notice. -/
theorem c5_mark_noop_witness :
    markDone [⟨1, "a", "Done", "t"⟩] 1
      = ([⟨1, "a", "Done", "t"⟩], Effect.info) :=
  (c5_mark_noop [⟨1, "a", "Done", "t"⟩] 1 ⟨1, "a", "Done", "t"⟩ (by decide)
    (by simp) rfl).1 rfl

/-- C6: for every task sequence (with duplicate-free ids, as the dense-ID
invariant guarantees) and every id present in it, mark_done then
mark_pending on that id returns the task's status to pending
(`"Not Done"`) with its id, name and created_at unchanged, and leaves every
other task unchanged. -/
theorem c6_done_pending_roundtrip (ts : List Task) (tid : Nat) (t : Task)
    (hnd : (ts.map (·.id)).Nodup) (ht : t ∈ ts) (hid : t.id = tid) :
    (markPending (markDone ts tid).1 tid).1
      = ts.map (fun u => if u.id = tid then { u with status := "Not Done" }
          else u) := by
  rw [markDone_eq_of_mem hnd ht hid]
  by_cases hs : t.status = "Done"
  · simp only [hs, ite_true]
    rw [markPending_eq_of_mem hnd ht hid]
    simp [hs]
  · simp only [hs, ite_false]
    have hcomp : ((fun u : Task => u.id) ∘ fun u : Task =>
        if u.id = tid then { u with status := "Done" } else u)
          = fun u : Task => u.id := by
      funext u
      by_cases h : u.id = tid <;> simp [h]
    have hnd' : ((ts.map (fun u => if u.id = tid then
        { u with status := "Done" } else u)).map (·.id)).Nodup := by
      rw [List.map_map, hcomp]
      exact hnd
    have ht' : (if t.id = tid then { t with status := "Done" } else t)
        ∈ ts.map (fun u => if u.id = tid then { u with status := "Done" }
            else u) := List.mem_map_of_mem _ ht
    rw [if_pos hid] at ht'
    rw [markPending_eq_of_mem hnd' ht' (by simp [hid])]
    have hsd : ¬ ({ t with status := "Done" } : Task).status = "Not Done" := by
      show ¬ ("Done" : String) = "Not Done"
      decide
    rw [if_neg hsd]
    show (ts.map fun u => if u.id = tid then { u with status := "Done" }
          else u).map
            (fun u => if u.id = tid then { u with status := "Not Done" }
              else u)
        = ts.map (fun u => if u.id = tid then { u with status := "Not Done" }
            else u)
    rw [List.map_map]
    exact List.map_congr_left fun u hu => by
      by_cases h : u.id = tid <;> simp [h]

/-- Witness for C6 on a two-task sequence, round-tripping id 2. -/
theorem c6_done_pending_roundtrip_witness :
    (markPending (markDone [⟨1, "a", "Done", "t1"⟩, ⟨2, "b", "Not Done", "t2"⟩]
        2).1 2).1
      = [⟨1, "a", "Done", "t1"⟩, ⟨2, "b", "Not Done", "t2"⟩].map
          (fun u => if u.id = 2 then { u with status := "Not Done" } else u) :=
  c6_done_pending_roundtrip _ 2 ⟨2, "b", "Not Done", "t2"⟩ (by decide)
    (by simp) rfl

lemma filter_length_split (p : Task → Bool) (l : List Task) :
    (l.filter p).length + (l.filter (fun a => !p a)).length = l.length := by
  induction l with
  | nil => rfl
  | cons a l ih =>
    by_cases h : p a <;> simp [List.filter_cons, h] <;> omega

/-- C2 counterexample: deleting with the id set `{2}` from the one-task
sequence `[⟨1, ...⟩]` removes no task (the sequence is unchanged), yet the
reported count is `1`, not the count of tasks removed (`0`). -/
theorem c2_delete_count_counterexample :
    ¬ ((deleteTask [⟨1, "a", "Not Done", "t"⟩] [2]).2
        = [(⟨1, "a", "Not Done", "t"⟩ : Task)].length
          - (deleteTask [⟨1, "a", "Not Done", "t"⟩] [2]).1.length) := by
  decide

/-- C2 (amended): delete removes exactly the tasks whose id is in the set,
renumbers the remainder to `1..N'` in their original relative order
(names, statuses and creation stamps kept pointwise), saves, and reports
the number of selected ids — which equals the count of tasks removed
whenever the sequence's ids are duplicate-free and the selected ids are
distinct and all present (always true for selections taken from the live
view), but not for arbitrary id sets. -/
theorem c2_delete_task (ts : List Task) (ids : List Nat) :
    ((deleteTask ts ids).1.map (fun t => (t.name, t.status, t.created_at))
        = (ts.filter (fun t => !ids.contains t.id)).map
            (fun t => (t.name, t.status, t.created_at)))
    ∧ (deleteTask ts ids).1.map (·.id)
        = List.range' 1 (ts.filter (fun t => !ids.contains t.id)).length
    ∧ (deleteTask ts ids).2 = ids.length
    ∧ ((ts.map (·.id)).Nodup → ids.Nodup →
        (∀ i ∈ ids, i ∈ ts.map (·.id)) →
        ts.length = (deleteTask ts ids).1.length + ids.length) := by
  refine ⟨renumberFrom_content _ _, ?_, rfl, ?_⟩
  · show (renumberFrom 1 _).map (·.id) = _
    rw [renumberFrom_map_id]
  · intro hnd hids hsub
    have hd1 : ((ts.filter (fun t => ids.contains t.id)).map (·.id)).Nodup :=
      List.Nodup.sublist ((List.filter_sublist ts).map _) hnd
    have hmemb : ∀ a : Nat,
        a ∈ (ts.filter (fun t => ids.contains t.id)).map (·.id) ↔ a ∈ ids := by
      intro a
      simp only [List.mem_map, List.mem_filter]
      constructor
      · rintro ⟨t, ⟨-, htin⟩, rfl⟩
        simpa using htin
      · intro ha
        obtain ⟨t, htm, hti⟩ := List.mem_map.1 (hsub a ha)
        exact ⟨t, ⟨htm, by simpa [hti]⟩, hti⟩
    have hperm : ((ts.filter (fun t => ids.contains t.id)).map (·.id)).Perm
        ids := (List.perm_ext_iff_of_nodup hd1 hids).2 hmemb
    have hlen1 : (ts.filter (fun t => ids.contains t.id)).length
        = ids.length := by
      have := hperm.length_eq
      simpa using this
    have hlen2 := filter_length_split (fun t => ids.contains t.id) ts
    have hlen3 : (deleteTask ts ids).1.length
        = (ts.filter (fun t => !ids.contains t.id)).length :=
      renumberFrom_length _ _
    omega

/-- Witness for C2 on the spec's scenario: two tasks, delete id 1; the
reported count is 1 and it equals the number of tasks removed. -/
theorem c2_delete_task_witness :
    (deleteTask [⟨1, "a", "Not Done", "t1"⟩, ⟨2, "b", "Done", "t2"⟩] [1]).2 = 1
    ∧ [(⟨1, "a", "Not Done", "t1"⟩ : Task), ⟨2, "b", "Done", "t2"⟩].length
        = (deleteTask [⟨1, "a", "Not Done", "t1"⟩, ⟨2, "b", "Done", "t2"⟩]
            [1]).1.length + 1 := by
  have h := c2_delete_task [⟨1, "a", "Not Done", "t1"⟩, ⟨2, "b", "Done", "t2"⟩]
    [1]
  exact ⟨h.2.2.1, by simpa using h.2.2.2 (by decide) (by decide) (by decide)⟩

/-- C7: on every task sequence with duplicate-free ids (the dense-ID
invariant) whose statuses are the two the program writes, the id sets of the
Done and Pending filtered views are disjoint, their union is the id set of
the unfiltered view, each filtered view is a sublist of (hence in the order
of) the underlying sequence, and filtering with no filter is the identity
(the underlying sequence is never mutated: `filterTasks` only reads it). -/
theorem c7_filter_partition (ts : List Task)
    (hnd : (ts.map (·.id)).Nodup)
    (hval : ∀ t ∈ ts, t.status = "Done" ∨ t.status = "Not Done") :
    (∀ i : Nat, i ∈ (filterTasks ts (some "Done")).map (·.id) →
        i ∉ (filterTasks ts (some "Not Done")).map (·.id))
    ∧ (∀ i : Nat, i ∈ (filterTasks ts none).map (·.id) ↔
        (i ∈ (filterTasks ts (some "Done")).map (·.id) ∨
         i ∈ (filterTasks ts (some "Not Done")).map (·.id)))
    ∧ (filterTasks ts (some "Done")).Sublist ts
    ∧ (filterTasks ts (some "Not Done")).Sublist ts
    ∧ filterTasks ts none = ts := by
  refine ⟨?_, ?_, List.filter_sublist ts, List.filter_sublist ts, rfl⟩
  · intro i hi hpi
    simp only [filterTasks, List.mem_map, List.mem_filter, beq_iff_eq] at hi hpi
    obtain ⟨t, ⟨htm, hst⟩, hti⟩ := hi
    obtain ⟨t', ⟨htm', hst'⟩, hti'⟩ := hpi
    have heq : t = t' :=
      List.inj_on_of_nodup_map hnd htm htm' (hti.trans hti'.symm)
    rw [heq, hst'] at hst
    exact absurd hst (by decide)
  · intro i
    simp only [filterTasks, List.mem_map, List.mem_filter, beq_iff_eq]
    constructor
    · rintro ⟨t, htm, rfl⟩
      rcases hval t htm with hs | hs
      · exact Or.inl ⟨t, ⟨htm, hs⟩, rfl⟩
      · exact Or.inr ⟨t, ⟨htm, hs⟩, rfl⟩
    · rintro (⟨t, ⟨htm, -⟩, rfl⟩ | ⟨t, ⟨htm, -⟩, rfl⟩) <;> exact ⟨t, htm, rfl⟩

/-- Witness for C7 on a concrete two-task sequence. -/
theorem c7_filter_partition_witness :
    (1 ∉ (filterTasks [⟨1, "a", "Done", "t1"⟩, ⟨2, "b", "Not Done", "t2"⟩]
        (some "Not Done")).map (·.id))
    ∧ (2 ∈ (filterTasks [⟨1, "a", "Done", "t1"⟩, ⟨2, "b", "Not Done", "t2"⟩]
          none).map (·.id) ↔
        (2 ∈ (filterTasks [⟨1, "a", "Done", "t1"⟩, ⟨2, "b", "Not Done", "t2"⟩]
            (some "Done")).map (·.id) ∨
         2 ∈ (filterTasks [⟨1, "a", "Done", "t1"⟩, ⟨2, "b", "Not Done", "t2"⟩]
            (some "Not Done")).map (·.id)))
    ∧ filterTasks [⟨1, "a", "Done", "t1"⟩, ⟨2, "b", "Not Done", "t2"⟩] none
        = [⟨1, "a", "Done", "t1"⟩, ⟨2, "b", "Not Done", "t2"⟩] := by
  have h := c7_filter_partition
    [⟨1, "a", "Done", "t1"⟩, ⟨2, "b", "Not Done", "t2"⟩] (by decide) (by decide)
  exact ⟨h.1 1 (by decide), h.2.1 2, h.2.2.2.2⟩

/-- C8: for every task sequence with duplicate-free ids, every id present in
it and every replacement name that is non-empty after trimming, edit changes
only that task's name (to the trimmed input): its id, status and created_at
are unchanged, every other task is unchanged, and the sequence is saved. -/
theorem c8_edit_frame (ts : List Task) (tid : Nat) (t : Task) (raw : String)
    (hnd : (ts.map (·.id)).Nodup) (ht : t ∈ ts) (hid : t.id = tid)
    (hraw : pyStrip raw ≠ "") :
    (editTask ts tid raw).1
      = ts.map (fun u => if u.id = tid then { u with name := pyStrip raw }
          else u)
    ∧ (editTask ts tid raw).2 = Effect.savedOk := by
  have hfind : (ts.find? (fun u => u.id == tid)).isSome :=
    List.find?_isSome.2 ⟨t, ht, by simp [hid]⟩
  obtain ⟨x, hx⟩ := Option.isSome_iff_exists.1 hfind
  have hmain : editTask ts tid raw
      = (editGo ts tid (pyStrip raw), Effect.savedOk) := by
    simp only [editTask, hx]
    simp [hraw]
  rw [hmain]
  exact ⟨editGo_eq_map _ hnd ht hid, rfl⟩

/-- Witness for C8: renaming the only task stores the trimmed name and
reports a save. -/
theorem c8_edit_frame_witness :
    (editTask [⟨1, "a", "Not Done", "t"⟩] 1 " b ").1
      = [⟨1, "a", "Not Done", "t"⟩].map
          (fun u => if u.id = 1 then { u with name := pyStrip " b " } else u)
    ∧ (editTask [⟨1, "a", "Not Done", "t"⟩] 1 " b ").2 = Effect.savedOk :=
  c8_edit_frame _ 1 ⟨1, "a", "Not Done", "t"⟩ " b " (by decide) (by simp) rfl
    (by decide)

/-- C9: signup checks its rules in source order, stopping at the first
failure — username non-empty (after stripping), `len(username) >= 3`,
password non-empty, `len(password) >= 4`, confirm non-empty,
`password == confirm`, username not already present — each violation giving
its own distinct error; success holds exactly when all rules hold.  At the
boundary (otherwise-valid inputs), a stripped username of length 2 fails and
one of length 3 succeeds. -/
theorem c9_register_validation (existing : List String) (u p c : String) :
    (register existing u p c = SignupResult.ok ↔
      (pyStrip u ≠ "" ∧ 3 ≤ (pyStrip u).length ∧ p ≠ "" ∧ 4 ≤ p.length
        ∧ c ≠ "" ∧ p = c ∧ pyStrip u ∉ existing))
    ∧ (pyStrip u = "" →
        register existing u p c = SignupResult.errEmptyUsername)
    ∧ (pyStrip u ≠ "" → (pyStrip u).length < 3 →
        register existing u p c = SignupResult.errShortUsername)
    ∧ (pyStrip u ≠ "" → 3 ≤ (pyStrip u).length → p = "" →
        register existing u p c = SignupResult.errEmptyPassword)
    ∧ (pyStrip u ≠ "" → 3 ≤ (pyStrip u).length → p ≠ "" → p.length < 4 →
        register existing u p c = SignupResult.errShortPassword)
    ∧ (pyStrip u ≠ "" → 3 ≤ (pyStrip u).length → p ≠ "" → 4 ≤ p.length →
        c = "" → register existing u p c = SignupResult.errEmptyConfirm)
    ∧ (pyStrip u ≠ "" → 3 ≤ (pyStrip u).length → p ≠ "" → 4 ≤ p.length →
        c ≠ "" → p ≠ c → register existing u p c = SignupResult.errMismatch)
    ∧ (pyStrip u ≠ "" → 3 ≤ (pyStrip u).length → p ≠ "" → 4 ≤ p.length →
        c ≠ "" → p = c → pyStrip u ∈ existing →
        register existing u p c = SignupResult.errExists)
    ∧ register [] "ab" "pass" "pass" = SignupResult.errShortUsername
    ∧ register [] "abc" "pass" "pass" = SignupResult.ok := by
  refine ⟨?_, ?_, ?_, ?_, ?_, ?_, ?_, ?_, by decide, by decide⟩
  · constructor
    · intro hok
      simp only [register] at hok
      split_ifs at hok with h1 h2 h3 h4 h5 h6 h7 <;>
        first
          | (exact absurd hok (by decide))
          | exact ⟨h1, by omega, h3, by omega, h5, not_not.1 h6, h7⟩
    · rintro ⟨n1, n2, n3, n4, n5, rfl, n7⟩
      simp [register, n1, n3, n5, n7, Nat.not_lt.2 n2, Nat.not_lt.2 n4]
  · intro h1
    simp [register, h1]
  · intro h1 h2
    simp [register, h1, h2]
  · intro h1 h2 h3
    simp [register, h1, h3, Nat.not_lt.2 h2]
  · intro h1 h2 h3 h4
    simp [register, h1, h3, h4, Nat.not_lt.2 h2]
  · intro h1 h2 h3 h4 h5
    simp [register, h1, h3, h5, Nat.not_lt.2 h2, Nat.not_lt.2 h4]
  · intro h1 h2 h3 h4 h5 h6
    simp [register, h1, h3, h5, h6, Nat.not_lt.2 h2, Nat.not_lt.2 h4]
  · intro h1 h2 h3 h4 h5 h6 h7
    subst h6
    simp [register, h1, h3, h5, h7, Nat.not_lt.2 h2, Nat.not_lt.2 h4]

/-- Witness for C9: the success characterization and the first-failure rule
at concrete inputs. -/
theorem c9_register_validation_witness :
    register ["bob"] " alice " "pw12" "pw12" = SignupResult.ok
    ∧ register ["bob"] "bob" "pw12" "pw12" = SignupResult.errExists := by
  have h1 := (c9_register_validation ["bob"] " alice " "pw12" "pw12").1
  have h2 := (c9_register_validation ["bob"] "bob" "pw12" "pw12").2.2.2.2.2.2.2.1
  exact ⟨h1.2 (by decide), h2 (by decide) (by decide) (by decide) (by decide)
    (by decide) (by decide) (by decide)⟩

lemma dropWhile_dropWhile (p : Char → Bool) (l : List Char) :
    (l.dropWhile p).dropWhile p = l.dropWhile p := by
  induction l with
  | nil => rfl
  | cons a l ih =>
    by_cases h : p a
    · simp [List.dropWhile_cons, h, ih]
    · simp [List.dropWhile_cons, h]

lemma dropWhile_eq_self_of_head {p : Char → Bool} {l : List Char}
    (h : ∀ a, l.head? = some a → p a = false) : l.dropWhile p = l := by
  cases l with
  | nil => rfl
  | cons a t => simp [List.dropWhile_cons, h a rfl]

lemma head_dropWhile_false (p : Char → Bool) (l : List Char) :
    ∀ a, (l.dropWhile p).head? = some a → p a = false := by
  intro a ha
  have h := List.head?_dropWhile_not p l
  rw [ha] at h
  exact h

/-- Stripping is idempotent: a second strip removes nothing. -/
lemma stripList_idem (l : List Char) : stripList (stripList l) = stripList l := by
  unfold stripList
  have hsuf : (l.dropWhile isPyWS).reverse.dropWhile isPyWS
      <:+ (l.dropWhile isPyWS).reverse := List.dropWhile_suffix _
  have hpre : ((l.dropWhile isPyWS).reverse.dropWhile isPyWS).reverse
      <+: l.dropWhile isPyWS := by
    have := hsuf.reverse
    rwa [List.reverse_reverse] at this
  have hleft : (((l.dropWhile isPyWS).reverse.dropWhile
      isPyWS).reverse).dropWhile isPyWS
      = ((l.dropWhile isPyWS).reverse.dropWhile isPyWS).reverse := by
    refine dropWhile_eq_self_of_head fun a ha => ?_
    obtain ⟨r, hr⟩ := hpre
    match hrev : ((l.dropWhile isPyWS).reverse.dropWhile isPyWS).reverse with
    | [] => rw [hrev] at ha; cases ha
    | b :: tl =>
      rw [hrev] at ha hr
      have hb : b = a := by
        simpa using ha
      subst hb
      exact head_dropWhile_false isPyWS l b (by rw [← hr]; rfl)
  rw [hleft, List.reverse_reverse, dropWhile_dropWhile]

/-- `pyStrip` is idempotent, so a stored stripped name has no surrounding
whitespace left to remove. -/
lemma pyStrip_idem (s : String) : pyStrip (pyStrip s) = pyStrip s :=
  congrArg String.mk (stripList_idem s.data)

lemma markDone_map_name (ts : List Task) (tid : Nat) :
    (markDone ts tid).1.map (·.name) = ts.map (·.name) := by
  induction ts with
  | nil => rfl
  | cons t ts ih =>
    simp only [markDone]
    split
    · split <;> simp
    · simp [ih]

lemma markPending_map_name (ts : List Task) (tid : Nat) :
    (markPending ts tid).1.map (·.name) = ts.map (·.name) := by
  induction ts with
  | nil => rfl
  | cons t ts ih =>
    simp only [markPending]
    split
    · split <;> simp
    · simp [ih]

lemma editGo_names {ts : List Task} {tid : Nat} {nm : String} :
    ∀ u ∈ editGo ts tid nm, u ∈ ts ∨ u.name = nm := by
  induction ts with
  | nil => intro u hu; cases hu
  | cons t ts ih =>
    intro u hu
    simp only [editGo] at hu
    by_cases h : t.id = tid
    · rw [if_pos h] at hu
      rcases List.mem_cons.1 hu with rfl | hm
      · exact Or.inr rfl
      · exact Or.inl (List.mem_cons_of_mem _ hm)
    · rw [if_neg h] at hu
      rcases List.mem_cons.1 hu with rfl | hm
      · exact Or.inl (List.mem_cons_self _ _)
      · rcases ih u hm with h' | h'
        · exact Or.inl (List.mem_cons_of_mem _ h')
        · exact Or.inr h'

lemma renumberFrom_map_name (ts : List Task) (i : Nat) :
    (renumberFrom i ts).map (·.name) = ts.map (·.name) := by
  induction ts generalizing i with
  | nil => rfl
  | cons t ts ih => simp [renumberFrom, ih]

/-- Every name in a reachable sequence is the strip of what the user typed,
hence fixed by a further strip. -/
lemma reachable_names_stripped {ts : List Task} (h : Reachable ts) :
    ∀ t ∈ ts, pyStrip t.name = t.name := by
  induction h with
  | nil => intro t ht; cases ht
  | add ts rawName now _ ih =>
    intro t ht
    unfold addTask at ht
    by_cases he : pyStrip rawName = ""
    · rw [if_pos he] at ht
      exact ih t ht
    · rw [if_neg he] at ht
      rcases List.mem_append.1 ht with hm | hm
      · exact ih t hm
      · have : t.name = pyStrip rawName := by
          rcases List.mem_singleton.1 hm with rfl
          rfl
        rw [this, pyStrip_idem]
  | edit ts tid rawName _ ih =>
    intro t ht
    unfold editTask at ht
    rcases hfind : ts.find? (fun u => u.id == tid) with - | x
    · rw [hfind] at ht
      exact ih t ht
    · rw [hfind] at ht
      by_cases he : pyStrip rawName = ""
      · rw [if_pos he] at ht
        exact ih t ht
      · rw [if_neg he] at ht
        rcases editGo_names t ht with hm | hm
        · exact ih t hm
        · rw [hm, pyStrip_idem]
  | done ts tid _ ih =>
    intro t ht
    have hn : t.name ∈ (markDone ts tid).1.map (·.name) :=
      List.mem_map_of_mem _ ht
    rw [markDone_map_name] at hn
    obtain ⟨v, hv, hvn⟩ := List.mem_map.1 hn
    rw [← hvn]
    exact ih v hv
  | pending ts tid _ ih =>
    intro t ht
    have hn : t.name ∈ (markPending ts tid).1.map (·.name) :=
      List.mem_map_of_mem _ ht
    rw [markPending_map_name] at hn
    obtain ⟨v, hv, hvn⟩ := List.mem_map.1 hn
    rw [← hvn]
    exact ih v hv
  | del ts ids _ ih =>
    intro t ht
    have hn : t.name ∈ (deleteTask ts ids).1.map (·.name) :=
      List.mem_map_of_mem _ ht
    rw [show (deleteTask ts ids).1 = renumberFrom 1
        (ts.filter (fun u => !ids.contains u.id)) from rfl,
      renumberFrom_map_name] at hn
    obtain ⟨v, hv, hvn⟩ := List.mem_map.1 hn
    rw [← hvn]
    exact ih v (List.mem_of_mem_filter hv)

/-- C10 (implicit): add and edit store the stripped input name — every task
appearing after an add or edit is either an old task or carries exactly the
trimmed name — and consequently no task name in any reachable sequence has
surrounding whitespace (stripping it again changes nothing). -/
theorem c10_names_trimmed (ts : List Task) (raw now : String) (tid : Nat)
    (h : Reachable ts) :
    (∀ t ∈ ts, pyStrip t.name = t.name)
    ∧ (pyStrip raw ≠ "" →
        ∀ t ∈ (addTask ts raw now).1, t ∈ ts ∨ t.name = pyStrip raw)
    ∧ (∀ t ∈ (editTask ts tid raw).1, t ∈ ts ∨ t.name = pyStrip raw) := by
  refine ⟨reachable_names_stripped h, ?_, ?_⟩
  · intro hne t ht
    unfold addTask at ht
    rw [if_neg hne] at ht
    rcases List.mem_append.1 ht with hm | hm
    · exact Or.inl hm
    · rcases List.mem_singleton.1 hm with rfl
      exact Or.inr rfl
  · intro t ht
    unfold editTask at ht
    rcases hfind : ts.find? (fun u => u.id == tid) with - | x
    · rw [hfind] at ht
      exact Or.inl ht
    · rw [hfind] at ht
      by_cases he : pyStrip raw = ""
      · rw [if_pos he] at ht
        exact Or.inl ht
      · rw [if_neg he] at ht
        exact editGo_names t ht

/-- Witness for C10: the task created by `add_task` from `" milk "` carries
the stripped name `"milk"`, which a further strip leaves unchanged. -/
theorem c10_names_trimmed_witness :
    pyStrip (Task.name ⟨1, "milk", "Not Done", "t"⟩)
      = Task.name ⟨1, "milk", "Not Done", "t"⟩ :=
  (c10_names_trimmed (addTask [] " milk " "t").1 "x" "n" 0
      (Reachable.add _ _ _ Reachable.nil)).1
    ⟨1, "milk", "Not Done", "t"⟩ (by decide)

end Todo
